import Mathlib

-- Shallow embedding of the evoidea core (src/scoring.rs, src/phase.rs,
-- src/orchestrator.rs, src/data.rs, src/config.rs). Machine floats (f32/f64)
-- are modelled as exact rationals, except where the source computes a
-- transcendental function (10^x, exp), where reals are used. Text fields of
-- the data model (titles, summaries, facets) never influence the algorithms
-- verified here and are omitted; Uuid identifiers are modelled as naturals.

namespace EvoIdea

-- Data model, from src/data.rs.

/-- Status of an idea (data.rs, IdeaStatus): ideas are never deleted, only
archived. -/
inductive IdeaStatus where
  | Active
  | Archived
  deriving DecidableEq

/-- The eight-criterion score vector (data.rs, Scores); f32 fields modelled
as rationals. -/
structure Scores where
  feasibility : ℚ
  speed_to_value : ℚ
  differentiation : ℚ
  market_size : ℚ
  distribution : ℚ
  moats : ℚ
  risk : ℚ
  clarity : ℚ
  deriving DecidableEq

/-- Scores::default() in data.rs: every criterion zero. -/
def Scores.default : Scores := ⟨0, 0, 0, 0, 0, 0, 0, 0⟩

/-- The eight per-criterion weights (config.rs, ScoringWeights). -/
structure ScoringWeights where
  feasibility : ℚ
  speed_to_value : ℚ
  differentiation : ℚ
  market_size : ℚ
  distribution : ℚ
  moats : ℚ
  risk : ℚ
  clarity : ℚ
  deriving DecidableEq

/-- ScoringWeights::default() in config.rs: uniform, all 1.0. -/
def ScoringWeights.default : ScoringWeights := ⟨1, 1, 1, 1, 1, 1, 1, 1⟩

/-- An idea record (data.rs, Idea), restricted to the fields the verified
algorithms read: identifier, criterion scores, optional overall score and
status. -/
structure Idea where
  id : ℕ
  scores : Scores
  overall_score : Option ℚ
  status : IdeaStatus
  deriving DecidableEq

-- Names for the eight criteria, used to state claims about the scoring
-- engine as sums over the criterion set rather than unfolded field syntax.

/-- The eight scoring criteria, in the order scoring.rs folds them. -/
inductive Criterion where
  | feasibility
  | speed_to_value
  | differentiation
  | market_size
  | distribution
  | moats
  | risk
  | clarity
  deriving DecidableEq, Fintype

/-- The criterion list in source order. -/
def Criterion.all : List Criterion :=
  [.feasibility, .speed_to_value, .differentiation, .market_size,
   .distribution, .moats, .risk, .clarity]

/-- Projection of a score vector at one criterion. -/
def Scores.get (s : Scores) : Criterion → ℚ
  | .feasibility => s.feasibility
  | .speed_to_value => s.speed_to_value
  | .differentiation => s.differentiation
  | .market_size => s.market_size
  | .distribution => s.distribution
  | .moats => s.moats
  | .risk => s.risk
  | .clarity => s.clarity

/-- Projection of a weight vector at one criterion. -/
def ScoringWeights.get (w : ScoringWeights) : Criterion → ℚ
  | .feasibility => w.feasibility
  | .speed_to_value => w.speed_to_value
  | .differentiation => w.differentiation
  | .market_size => w.market_size
  | .distribution => w.distribution
  | .moats => w.moats
  | .risk => w.risk
  | .clarity => w.clarity

-- Scoring engine, from src/scoring.rs.

/-- The numerator of calculate_overall_score (scoring.rs lines 8 to 15):
every criterion contributes value times weight, except risk which is
inverted and contributes (10 - risk) times weight. -/
def weightedSum (s : Scores) (w : ScoringWeights) : ℚ :=
  s.feasibility * w.feasibility
    + s.speed_to_value * w.speed_to_value
    + s.differentiation * w.differentiation
    + s.market_size * w.market_size
    + s.distribution * w.distribution
    + s.moats * w.moats
    + (10 - s.risk) * w.risk
    + s.clarity * w.clarity

/-- The denominator of calculate_overall_score (scoring.rs lines 17 to 24):
the plain sum of the eight weights. -/
def totalWeight (w : ScoringWeights) : ℚ :=
  w.feasibility + w.speed_to_value + w.differentiation + w.market_size
    + w.distribution + w.moats + w.risk + w.clarity

/-- calculate_overall_score (scoring.rs lines 7 to 27): the weighted sum
divided by the total weight. The f32 quotient is modelled as the rational
quotient; a zero total weight is the IEEE divide-by-zero case of the source
(0.0 / 0.0, a NaN), which the rational convention maps to 0. -/
def calculate_overall_score (s : Scores) (w : ScoringWeights) : ℚ :=
  weightedSum s w / totalWeight w

/-- Contribution of one criterion to the weighted sum, with the risk
inversion of scoring.rs made explicit per criterion. -/
def contribution (s : Scores) (w : ScoringWeights) : Criterion → ℚ
  | .risk => (10 - s.risk) * w.risk
  | c => s.get c * w.get c

/-- update_stagnation (scoring.rs lines 109 to 119): reset to 0 on a strict
improvement or a first recorded best; otherwise increment. The wildcard arm
of the Rust match covers every case where current_best is None. -/
def update_stagnation (current_best previous_best : Option ℚ)
    (stagnation_counter : ℕ) : ℕ :=
  match current_best, previous_best with
  | some current, some previous =>
      if previous < current then 0 else stagnation_counter + 1
  | some _, none => 0
  | _, _ => stagnation_counter + 1

-- Shared facts about the scoring engine.

/-- The total weight unfolded as the sum over the criterion list. -/
lemma totalWeight_eq_sum (w : ScoringWeights) :
    totalWeight w = (Criterion.all.map w.get).sum := by
  simp [Criterion.all, ScoringWeights.get, totalWeight]
  ring

/-- The weighted sum unfolded as the sum of per-criterion contributions. -/
lemma weightedSum_eq_sum (s : Scores) (w : ScoringWeights) :
    weightedSum s w = (Criterion.all.map (contribution s w)).sum := by
  simp [Criterion.all, contribution, Scores.get, ScoringWeights.get, weightedSum]
  ring

/-- A non-negative weight vector with at least one positive weight has a
positive total weight. -/
lemma totalWeight_pos (w : ScoringWeights) (hnn : ∀ c, 0 ≤ w.get c)
    (hex : ∃ c, 0 < w.get c) : 0 < totalWeight w := by
  have h0 : 0 ≤ w.feasibility := hnn .feasibility
  have h1 : 0 ≤ w.speed_to_value := hnn .speed_to_value
  have h2 : 0 ≤ w.differentiation := hnn .differentiation
  have h3 : 0 ≤ w.market_size := hnn .market_size
  have h4 : 0 ≤ w.distribution := hnn .distribution
  have h5 : 0 ≤ w.moats := hnn .moats
  have h6 : 0 ≤ w.risk := hnn .risk
  have h7 : 0 ≤ w.clarity := hnn .clarity
  obtain ⟨c, hc⟩ := hex
  cases c <;> (simp only [ScoringWeights.get] at hc; unfold totalWeight; linarith)

-- Theorems for claim C3.

/-- C3 counterexample: with both scores absent, the claim as stated demands
0 because previous is absent, but the code falls into the wildcard arm of
the match and returns counter + 1. Concrete input: current = None,
previous = None, counter = 0. -/
theorem update_stagnation_both_none_ne_zero :
    update_stagnation (none : Option ℚ) none 0 ≠ 0 := by
  decide

/-- C3 (amended): update_stagnation returns 0 exactly when current is
present and previous is either absent or strictly below current; in every
other case it returns counter + 1. -/
theorem update_stagnation_spec :
    ∀ (current previous : Option ℚ) (counter : ℕ),
      (update_stagnation current previous counter = 0 ↔
        ∃ c, current = some c ∧ ∀ p, previous = some p → p < c) ∧
      (update_stagnation current previous counter ≠ 0 →
        update_stagnation current previous counter = counter + 1) := by
  intro current previous counter
  cases current with
  | none =>
      cases previous <;>
        simp [update_stagnation]
  | some c =>
      cases previous with
      | none => simp [update_stagnation]
      | some p =>
          by_cases h : p < c <;>
            simp [update_stagnation, h]

-- Theorems for claim C5.

/-- C5: with all eight weights zero, both the total weight (the divisor of
calculate_overall_score) and the weighted sum are zero, so the f32 source
performs the IEEE divide-by-zero 0.0 / 0.0; with non-negative weights at
least one of which is positive, the divisor is positive and the result is
the weighted sum over the eight criteria divided by the sum of weights,
with risk contributing as (10 - risk) times its weight (the contribution
function). -/
theorem overall_score_zero_weights_and_formula :
    ∀ (s : Scores) (w : ScoringWeights),
      ((∀ c, w.get c = 0) → totalWeight w = 0 ∧ weightedSum s w = 0) ∧
      ((∀ c, 0 ≤ w.get c) → (∃ c, 0 < w.get c) →
        0 < totalWeight w ∧
        calculate_overall_score s w
          = (Criterion.all.map (contribution s w)).sum
            / (Criterion.all.map w.get).sum) := by
  intro s w
  constructor
  · intro hz
    have h0 : w.feasibility = 0 := hz .feasibility
    have h1 : w.speed_to_value = 0 := hz .speed_to_value
    have h2 : w.differentiation = 0 := hz .differentiation
    have h3 : w.market_size = 0 := hz .market_size
    have h4 : w.distribution = 0 := hz .distribution
    have h5 : w.moats = 0 := hz .moats
    have h6 : w.risk = 0 := hz .risk
    have h7 : w.clarity = 0 := hz .clarity
    constructor
    · simp [totalWeight, h0, h1, h2, h3, h4, h5, h6, h7]
    · simp [weightedSum, h0, h1, h2, h3, h4, h5, h6, h7]
  · intro hnn hex
    refine ⟨totalWeight_pos w hnn hex, ?_⟩
    rw [calculate_overall_score, weightedSum_eq_sum, totalWeight_eq_sum]

-- Theorems for claim C6.

/-- Division by the positive total weight is monotone. -/
lemma div_totalWeight_mono (w : ScoringWeights) (hpos : 0 < totalWeight w)
    {a b : ℚ} (h : a ≤ b) : a / totalWeight w ≤ b / totalWeight w :=
  (div_le_div_iff_of_pos_right hpos).mpr h

/-- C6: for every non-negative weight vector with at least one positive
weight, calculate_overall_score is weakly increasing in each of the seven
non-risk criteria and weakly decreasing in the risk criterion. -/
theorem overall_score_monotone (w : ScoringWeights)
    (hnn : ∀ c, 0 ≤ w.get c) (hex : ∃ c, 0 < w.get c) :
    (∀ (s : Scores) (x y : ℚ), x ≤ y →
      calculate_overall_score { s with feasibility := x } w
        ≤ calculate_overall_score { s with feasibility := y } w) ∧
    (∀ (s : Scores) (x y : ℚ), x ≤ y →
      calculate_overall_score { s with speed_to_value := x } w
        ≤ calculate_overall_score { s with speed_to_value := y } w) ∧
    (∀ (s : Scores) (x y : ℚ), x ≤ y →
      calculate_overall_score { s with differentiation := x } w
        ≤ calculate_overall_score { s with differentiation := y } w) ∧
    (∀ (s : Scores) (x y : ℚ), x ≤ y →
      calculate_overall_score { s with market_size := x } w
        ≤ calculate_overall_score { s with market_size := y } w) ∧
    (∀ (s : Scores) (x y : ℚ), x ≤ y →
      calculate_overall_score { s with distribution := x } w
        ≤ calculate_overall_score { s with distribution := y } w) ∧
    (∀ (s : Scores) (x y : ℚ), x ≤ y →
      calculate_overall_score { s with moats := x } w
        ≤ calculate_overall_score { s with moats := y } w) ∧
    (∀ (s : Scores) (x y : ℚ), x ≤ y →
      calculate_overall_score { s with clarity := x } w
        ≤ calculate_overall_score { s with clarity := y } w) ∧
    (∀ (s : Scores) (x y : ℚ), x ≤ y →
      calculate_overall_score { s with risk := y } w
        ≤ calculate_overall_score { s with risk := x } w) := by
  have hpos := totalWeight_pos w hnn hex
  have h0 : 0 ≤ w.feasibility := hnn .feasibility
  have h1 : 0 ≤ w.speed_to_value := hnn .speed_to_value
  have h2 : 0 ≤ w.differentiation := hnn .differentiation
  have h3 : 0 ≤ w.market_size := hnn .market_size
  have h4 : 0 ≤ w.distribution := hnn .distribution
  have h5 : 0 ≤ w.moats := hnn .moats
  have h6 : 0 ≤ w.risk := hnn .risk
  have h7 : 0 ≤ w.clarity := hnn .clarity
  refine ⟨?_, ?_, ?_, ?_, ?_, ?_, ?_, ?_⟩ <;>
    intro s x y hxy <;>
    apply div_totalWeight_mono w hpos <;>
    simp only [weightedSum]
  · nlinarith [mul_le_mul_of_nonneg_right hxy h0]
  · nlinarith [mul_le_mul_of_nonneg_right hxy h1]
  · nlinarith [mul_le_mul_of_nonneg_right hxy h2]
  · nlinarith [mul_le_mul_of_nonneg_right hxy h3]
  · nlinarith [mul_le_mul_of_nonneg_right hxy h4]
  · nlinarith [mul_le_mul_of_nonneg_right hxy h5]
  · nlinarith [mul_le_mul_of_nonneg_right hxy h7]
  · nlinarith [mul_le_mul_of_nonneg_right (by linarith : (10 : ℚ) - y ≤ 10 - x) h6]

/-- C6 witness: at the uniform default weights, raising feasibility from 0
to 1 does not lower the overall score. -/
theorem overall_score_monotone_witness :
    calculate_overall_score { Scores.default with feasibility := 0 }
        ScoringWeights.default
      ≤ calculate_overall_score { Scores.default with feasibility := 1 }
        ScoringWeights.default :=
  (overall_score_monotone ScoringWeights.default (by decide)
      (by decide)).1 Scores.default 0 1 (by norm_num)

-- Selection algorithm, from src/scoring.rs lines 30 to 91, and the Select
-- phase archiving step from src/phase.rs lines 124 to 138.

/-- Score projection used by the descending sort of select_ideas. The Rust
comparator compares Option values of ideas already filtered to carry a
score, so the default 0 of this projection is never exercised there. -/
def scoreOf (i : Idea) : ℚ := i.overall_score.getD 0

/-- Insertion into a descending-sorted list, passing over strictly greater
scores: together with sortByScoreDesc this is the stable descending sort
that slice sort_by with the descending comparator performs. -/
def insertByScoreDesc (x : Idea) : List Idea → List Idea
  | [] => [x]
  | y :: ys =>
      if scoreOf x < scoreOf y then y :: insertByScoreDesc x ys
      else x :: y :: ys

/-- Stable sort by overall score, descending; ties keep original order. -/
def sortByScoreDesc : List Idea → List Idea
  | [] => []
  | x :: xs => insertByScoreDesc x (sortByScoreDesc xs)

/-- The filter of select_ideas (scoring.rs lines 36 to 39): Active ideas
with a present overall score. -/
def activeScored (ideas : List Idea) : List Idea :=
  ideas.filter (fun i => i.status == IdeaStatus.Active && i.overall_score.isSome)

/-- Lower bound of the mid-rank band (scoring.rs line 65): ceil of 0.3
times the length, computed exactly over the rationals. -/
def startIdx (n : ℕ) : ℕ := Nat.ceil ((n : ℚ) * 3 / 10)

/-- Upper bound of the mid-rank band (scoring.rs line 66): floor of 0.7
times the length. -/
def endIdx (n : ℕ) : ℕ := Nat.floor ((n : ℚ) * 7 / 10)

/-- The mid-rank band of the sorted list (scoring.rs lines 69 to 72): the
slice from start_idx to end_idx capped at the length, with anything already
selected filtered out. -/
def midRank (sorted : List Idea) (selected : List ℕ) : List Idea :=
  ((sorted.drop (startIdx sorted.length)).take
      (min (endIdx sorted.length) sorted.length - startIdx sorted.length)).filter
    (fun i => ! selected.contains i.id)

/-- Diversity sampling (scoring.rs lines 68 to 87): when the band is
non-degenerate, sample min(diversity_slots, band size) indices from the
band and collect the ids. The random choose_multiple of the source is
modelled by the pick parameter, a function from (band length, amount) to
chosen indices. -/
def diversityIds (sorted : List Idea) (selected : List ℕ)
    (diversity_slots : ℕ) (pick : ℕ → ℕ → List ℕ) : List ℕ :=
  if startIdx sorted.length < endIdx sorted.length ∧
      startIdx sorted.length < sorted.length then
    let mid := midRank sorted selected
    ((pick mid.length (min diversity_slots mid.length)).filterMap
        (fun idx => mid[idx]?)).map Idea.id
  else []

/-- select_ideas (scoring.rs lines 30 to 91): filter to Active scored
ideas, sort descending by overall score, keep the top min(elite_count, n)
as elite, and fill up to diversity_slots = population_size - elite_taken
survivors from the mid-rank band at random. -/
def select_ideas (ideas : List Idea) (elite_count population_size : ℕ)
    (pick : ℕ → ℕ → List ℕ) : List ℕ :=
  let active_ideas := sortByScoreDesc (activeScored ideas)
  if active_ideas = [] then []
  else
    let elite_to_take := min elite_count active_ideas.length
    let selected_elite := (active_ideas.take elite_to_take).map Idea.id
    let diversity_slots := population_size - elite_to_take
    if 0 < diversity_slots ∧ elite_to_take < active_ideas.length then
      selected_elite ++ diversityIds active_ideas selected_elite diversity_slots pick
    else selected_elite

/-- Archiving step of SelectPhase::run (phase.rs lines 131 to 138): every
Active idea whose id was not selected transitions to Archived. -/
def archiveUnselected (ideas : List Idea) (selected_ids : List ℕ) : List Idea :=
  ideas.map (fun i =>
    if i.status = IdeaStatus.Active ∧ i.id ∉ selected_ids then
      { i with status := IdeaStatus.Archived }
    else i)

/-- The effect of SelectPhase::run (phase.rs lines 124 to 182) on the idea
list: select survivors, then archive every unselected Active idea. -/
def selectPhaseIdeas (ideas : List Idea) (elite_count population_size : ℕ)
    (pick : ℕ → ℕ → List ℕ) : List Idea :=
  archiveUnselected ideas (select_ideas ideas elite_count population_size pick)

-- Membership and soundness lemmas for the selection algorithm.

/-- Insertion neither adds nor drops members. -/
lemma mem_insertByScoreDesc {x a : Idea} {l : List Idea} :
    a ∈ insertByScoreDesc x l ↔ a = x ∨ a ∈ l := by
  induction l with
  | nil => simp [insertByScoreDesc]
  | cons y ys ih =>
      by_cases h : scoreOf x < scoreOf y
      · simp [insertByScoreDesc, h, ih]
        tauto
      · simp [insertByScoreDesc, h]

/-- Sorting neither adds nor drops members. -/
lemma mem_sortByScoreDesc {a : Idea} {l : List Idea} :
    a ∈ sortByScoreDesc l ↔ a ∈ l := by
  induction l with
  | nil => simp [sortByScoreDesc]
  | cons x xs ih => simp [sortByScoreDesc, mem_insertByScoreDesc, ih]

/-- Members of the filtered list are Active ideas of the input carrying an
overall score. -/
lemma mem_activeScored {a : Idea} {ideas : List Idea} :
    a ∈ activeScored ideas ↔
      a ∈ ideas ∧ a.status = IdeaStatus.Active ∧ a.overall_score.isSome := by
  simp [activeScored, List.mem_filter, and_assoc]

/-- Every id sampled for diversity is the id of a member of the sorted
list. -/
lemma diversityIds_sound {sorted : List Idea} {selected : List ℕ}
    {slots : ℕ} {pick : ℕ → ℕ → List ℕ} :
    ∀ id ∈ diversityIds sorted selected slots pick,
      ∃ i, i ∈ sorted ∧ i.id = id := by
  intro id hid
  unfold diversityIds at hid
  split at hid
  · simp only [List.mem_map, List.mem_filterMap] at hid
    obtain ⟨i, ⟨idx, _, hget⟩, hida⟩ := hid
    refine ⟨i, ?_, hida⟩
    have hmem : i ∈ midRank sorted selected := List.getElem?_mem hget
    have h1 := List.mem_of_mem_filter hmem
    exact List.mem_of_mem_drop (List.mem_of_mem_take h1)
  · simp at hid

/-- The diversity sample never exceeds the slot budget, provided pick
returns at most the requested amount (the contract of choose_multiple). -/
lemma diversityIds_length_le {sorted : List Idea} {selected : List ℕ}
    {slots : ℕ} {pick : ℕ → ℕ → List ℕ}
    (hpick : ∀ n k, (pick n k).length ≤ k) :
    (diversityIds sorted selected slots pick).length ≤ slots := by
  unfold diversityIds
  split
  · simp only [List.length_map]
    calc ((pick (midRank sorted selected).length
            (min slots (midRank sorted selected).length)).filterMap
              (fun idx => (midRank sorted selected)[idx]?)).length
        ≤ (pick (midRank sorted selected).length
            (min slots (midRank sorted selected).length)).length :=
          List.length_filterMap_le _ _
      _ ≤ min slots (midRank sorted selected).length := hpick _ _
      _ ≤ slots := min_le_left _ _
  · simp

-- Theorems for claim C1.

/-- C1 (amended): for every elite_count the ids of the top
min(elite_count, n) ideas in the stable descending order are always
included verbatim; and whenever elite_count does not exceed
population_size (as in every configuration the orchestrator builds),
select_ideas returns at most population_size ids. The pick parameter
models choose_multiple and returns at most the requested amount. -/
theorem select_ideas_bound_and_elite (ideas : List Idea)
    (elite_count population_size : ℕ) (pick : ℕ → ℕ → List ℕ)
    (hpick : ∀ n k, (pick n k).length ≤ k) :
    (elite_count ≤ population_size →
      (select_ideas ideas elite_count population_size pick).length
        ≤ population_size) ∧
    ∀ i ∈ (sortByScoreDesc (activeScored ideas)).take
        (min elite_count (sortByScoreDesc (activeScored ideas)).length),
      i.id ∈ select_ideas ideas elite_count population_size pick := by
  simp only [select_ideas]
  by_cases hemp : sortByScoreDesc (activeScored ideas) = []
  · rw [if_pos hemp]
    constructor
    · intro hep
      simp
    · intro i hi
      rw [hemp] at hi
      simp at hi
  · rw [if_neg hemp]
    by_cases hdiv : 0 < population_size
          - min elite_count (sortByScoreDesc (activeScored ideas)).length ∧
        min elite_count (sortByScoreDesc (activeScored ideas)).length
          < (sortByScoreDesc (activeScored ideas)).length
    · rw [if_pos hdiv]
      constructor
      · intro hep
        have hB := @diversityIds_length_le
          (sortByScoreDesc (activeScored ideas))
          (((sortByScoreDesc (activeScored ideas)).take
            (min elite_count (sortByScoreDesc (activeScored ideas)).length)).map
              Idea.id)
          (population_size
            - min elite_count (sortByScoreDesc (activeScored ideas)).length)
          pick hpick
        have hm : min elite_count (sortByScoreDesc (activeScored ideas)).length
            ≤ population_size :=
          le_trans (min_le_left _ _) hep
        simp only [List.length_append, List.length_map, List.length_take]
        omega
      · intro i hi
        exact List.mem_append_left _ (List.mem_map_of_mem Idea.id hi)
    · rw [if_neg hdiv]
      constructor
      · intro hep
        simp only [List.length_map, List.length_take]
        omega
      · intro i hi
        exact List.mem_map_of_mem Idea.id hi

/-- Shared pick stub for concrete inputs: choose nothing. -/
def cexPick : ℕ → ℕ → List ℕ := fun _ _ => []

/-- Two Active scored ideas used as a concrete selection input. -/
def cexSelectIdeas : List Idea :=
  [⟨0, Scores.default, some 5, .Active⟩, ⟨1, Scores.default, some 4, .Active⟩]

/-- C1 counterexample: the claim quantifies over every elite_count and
population_size, but with elite_count = 2 and population_size = 1 over two
Active scored ideas the code keeps both elite ids, so the returned id set
has size 2, exceeding population_size = 1. -/
theorem select_ideas_exceeds_population :
    ¬ ((select_ideas cexSelectIdeas 2 1 cexPick).length ≤ 1) := by
  decide

/-- C1 witness: the amended claim applied at the concrete input with
elite_count = 1 and population_size = 2. -/
theorem select_ideas_bound_and_elite_witness :
    ((1 : ℕ) ≤ 2 →
      (select_ideas cexSelectIdeas 1 2 cexPick).length ≤ 2) ∧
    ∀ i ∈ (sortByScoreDesc (activeScored cexSelectIdeas)).take
        (min 1 (sortByScoreDesc (activeScored cexSelectIdeas)).length),
      i.id ∈ select_ideas cexSelectIdeas 1 2 cexPick :=
  select_ideas_bound_and_elite cexSelectIdeas 1 2 cexPick
    (fun n k => by simp [cexPick])

-- Theorems for claim C10.

/-- Every id returned by select_ideas belongs to an input idea that is
Active and carries an overall score. -/
lemma select_ideas_only_active_scored {ideas : List Idea}
    {elite_count population_size : ℕ} {pick : ℕ → ℕ → List ℕ} :
    ∀ id ∈ select_ideas ideas elite_count population_size pick,
      ∃ i, i ∈ ideas ∧ i.id = id ∧ i.status = IdeaStatus.Active ∧
        i.overall_score.isSome := by
  intro id hid
  have hsorted : ∀ i, i ∈ sortByScoreDesc (activeScored ideas) →
      i ∈ ideas ∧ i.status = IdeaStatus.Active ∧ i.overall_score.isSome :=
    fun i hi => mem_activeScored.mp (mem_sortByScoreDesc.mp hi)
  have helite : ∀ m,
      id ∈ ((sortByScoreDesc (activeScored ideas)).take m).map Idea.id →
      ∃ i, i ∈ ideas ∧ i.id = id ∧ i.status = IdeaStatus.Active ∧
        i.overall_score.isSome := by
    intro m hm
    obtain ⟨i, hi, hid2⟩ := List.mem_map.mp hm
    obtain ⟨h1, h2, h3⟩ := hsorted i (List.mem_of_mem_take hi)
    exact ⟨i, h1, hid2, h2, h3⟩
  simp only [select_ideas] at hid
  split at hid
  · simp at hid
  · split at hid
    · rcases List.mem_append.mp hid with hid1 | hid2
      · exact helite _ hid1
      · obtain ⟨i, hi, hid3⟩ := diversityIds_sound id hid2
        obtain ⟨h1, h2, h3⟩ := hsorted i hi
        exact ⟨i, h1, hid3, h2, h3⟩
    · exact helite _ hid

/-- C10: select_ideas only ever returns ids of ideas that are Active with
a present overall score, so after the Select phase archiving step every
idea still Active carries an overall score: an unscored Active idea never
survives selection. Idea ids are assumed pairwise distinct, the uniqueness
invariant of the data model. -/
theorem select_phase_archives_unscored (ideas : List Idea)
    (elite_count population_size : ℕ) (pick : ℕ → ℕ → List ℕ)
    (hids : (ideas.map Idea.id).Nodup) :
    (∀ id ∈ select_ideas ideas elite_count population_size pick,
      ∃ i, i ∈ ideas ∧ i.id = id ∧ i.status = IdeaStatus.Active ∧
        i.overall_score.isSome) ∧
    (∀ j ∈ selectPhaseIdeas ideas elite_count population_size pick,
      j.status = IdeaStatus.Active → j.overall_score ≠ none) := by
  refine ⟨select_ideas_only_active_scored, ?_⟩
  intro j hj hact
  simp only [selectPhaseIdeas, archiveUnselected, List.mem_map] at hj
  obtain ⟨i, hi, hfi⟩ := hj
  by_cases hcond : i.status = IdeaStatus.Active ∧
      i.id ∉ select_ideas ideas elite_count population_size pick
  · rw [if_pos hcond] at hfi
    rw [← hfi] at hact
    simp at hact
  · rw [if_neg hcond] at hfi
    subst hfi
    push_neg at hcond
    have hin : i.id ∈ select_ideas ideas elite_count population_size pick :=
      hcond hact
    obtain ⟨i2, hi2, hid2, _, hscored⟩ := select_ideas_only_active_scored _ hin
    have heq : i2 = i := List.inj_on_of_nodup_map hids hi2 hi hid2
    rw [← heq]
    exact Option.isSome_iff_ne_none.mp hscored

/-- Two Active ideas, one unscored, used as a concrete Select phase
input. -/
def cexMixedIdeas : List Idea :=
  [⟨0, Scores.default, none, .Active⟩, ⟨1, Scores.default, some 3, .Active⟩]

/-- C10 witness: the theorem applied at a concrete population with one
unscored Active idea, the distinctness of ids discharged by computation. -/
theorem select_phase_archives_unscored_witness :
    (∀ id ∈ select_ideas cexMixedIdeas 1 1 cexPick,
      ∃ i, i ∈ cexMixedIdeas ∧ i.id = id ∧ i.status = IdeaStatus.Active ∧
        i.overall_score.isSome) ∧
    (∀ j ∈ selectPhaseIdeas cexMixedIdeas 1 1 cexPick,
      j.status = IdeaStatus.Active → j.overall_score ≠ none) :=
  select_phase_archives_unscored cexMixedIdeas 1 1 cexPick (by decide)

-- Critic phase, from src/phase.rs lines 76 to 113 and the patch
-- application of src/llm.rs lines 239 to 302.

/-- A per-idea score patch returned by the critic (llm.rs): an optional
replacement score vector and an optional overall score. The judge notes are
text and omitted. -/
structure CriticPatch where
  id : ℕ
  scores : Option Scores
  overall_score : Option ℚ

/-- Application of one patch (llm.rs lines 253 to 294): the first idea with
a matching id gets the patched score vector when present and the patched
overall score unconditionally. -/
def applyPatchTo : List Idea → CriticPatch → List Idea
  | [], _ => []
  | i :: rest, p =>
      if i.id = p.id then
        { i with scores := p.scores.getD i.scores,
                 overall_score := p.overall_score } :: rest
      else i :: applyPatchTo rest p

/-- apply_critic_patches (llm.rs lines 239 to 302): fold the patches over
the idea list in order. -/
def apply_critic_patches (ideas : List Idea) (patches : List CriticPatch) :
    List Idea :=
  patches.foldl applyPatchTo ideas

/-- CriticPhase::run (phase.rs lines 76 to 113) restricted to its effect
on the idea list: collect Active ideas with no overall score; when none
exist, return the state unchanged; otherwise apply the critic patches and
recompute the overall score of every Active idea from its criterion scores
and the configured weights. -/
def criticRun (ideas : List Idea) (patches : List CriticPatch)
    (w : ScoringWeights) : List Idea :=
  let unscored := ideas.filter
    (fun i => i.status == IdeaStatus.Active && i.overall_score.isNone)
  if unscored = [] then ideas
  else
    (apply_critic_patches ideas patches).map (fun i =>
      if i.status = IdeaStatus.Active then
        { i with overall_score := some (calculate_overall_score i.scores w) }
      else i)

-- Theorems for claim C2.

/-- One Active idea already carrying an overall score that its criterion
vector and the default weights do not reproduce. -/
def cexScoredIdeas : List Idea := [⟨0, Scores.default, some 99, .Active⟩]

/-- The Critic phase leaves the fully scored concrete population
untouched: the unscored filter is empty, so the early return fires. -/
lemma criticRun_scored_eval :
    criticRun cexScoredIdeas [] ScoringWeights.default = cexScoredIdeas := rfl

/-- C2 counterexample: on a state where every Active idea already carries
an overall score, CriticPhase::run returns early and recomputes nothing,
so the stale score 99 survives although the scoring engine would give
10/8. The claim promised recomputation for every state. -/
theorem critic_skips_when_all_scored :
    ¬ (∀ j ∈ criticRun cexScoredIdeas [] ScoringWeights.default,
        j.status = IdeaStatus.Active →
        j.overall_score
          = some (calculate_overall_score j.scores ScoringWeights.default)) := by
  intro hall
  have hmem : (⟨0, Scores.default, some 99, .Active⟩ : Idea)
      ∈ criticRun cexScoredIdeas [] ScoringWeights.default := by
    rw [criticRun_scored_eval]
    simp [cexScoredIdeas]
  have h := hall _ hmem rfl
  simp only [Option.some_inj] at h
  norm_num [calculate_overall_score, weightedSum, totalWeight, Scores.default,
    ScoringWeights.default] at h

/-- C2 (amended): whenever at least one Active idea lacks an overall
score, the Critic phase recomputes the overall score of every Active idea
(not only the patched ones) from its criterion scores and the configured
weights. -/
theorem critic_rescoring_all_active (ideas : List Idea)
    (patches : List CriticPatch) (w : ScoringWeights)
    (h : ∃ i ∈ ideas, i.status = IdeaStatus.Active ∧ i.overall_score = none) :
    ∀ j ∈ criticRun ideas patches w, j.status = IdeaStatus.Active →
      j.overall_score = some (calculate_overall_score j.scores w) := by
  intro j hj hact
  have hne : ideas.filter
      (fun i => i.status == IdeaStatus.Active && i.overall_score.isNone)
      ≠ [] := by
    obtain ⟨i, hi, h1, h2⟩ := h
    intro hempty
    have hmem : i ∈ ideas.filter
        (fun i => i.status == IdeaStatus.Active && i.overall_score.isNone) :=
      List.mem_filter.mpr ⟨hi, by simp [h1, h2]⟩
    rw [hempty] at hmem
    simp at hmem
  simp only [criticRun] at hj
  rw [if_neg hne] at hj
  obtain ⟨i, hi, hfi⟩ := List.mem_map.mp hj
  by_cases hc : i.status = IdeaStatus.Active
  · rw [if_pos hc] at hfi
    subst hfi
    rfl
  · rw [if_neg hc] at hfi
    subst hfi
    exact absurd hact hc

/-- One unscored Active idea used as a concrete Critic phase input. -/
def cexUnscoredIdeas : List Idea := [⟨0, Scores.default, none, .Active⟩]

/-- The idea the Critic phase produces from the concrete unscored input. -/
def criticWitnessIdea : Idea :=
  ⟨0, Scores.default,
    some (calculate_overall_score Scores.default ScoringWeights.default),
    .Active⟩

/-- Evaluation of the Critic phase on the concrete unscored population. -/
lemma criticRun_unscored_eval :
    criticRun cexUnscoredIdeas [] ScoringWeights.default
      = [criticWitnessIdea] := rfl

/-- C2 witness: the amended claim applied to the concrete idea produced by
the Critic phase on a population with one unscored Active idea. -/
theorem critic_rescoring_all_active_witness :
    criticWitnessIdea.overall_score
      = some (calculate_overall_score criticWitnessIdea.scores
          ScoringWeights.default) :=
  critic_rescoring_all_active cexUnscoredIdeas [] ScoringWeights.default
    ⟨⟨0, Scores.default, none, .Active⟩, by simp [cexUnscoredIdeas], rfl, rfl⟩
    criticWitnessIdea
    (by rw [criticRun_unscored_eval]; exact List.mem_singleton.mpr rfl) rfl

-- Final phase, from src/phase.rs lines 320 to 380.

/-- Insertion preserves the descending order. -/
lemma sorted_insertByScoreDesc (x : Idea) (l : List Idea)
    (h : l.Pairwise (fun a b => scoreOf b ≤ scoreOf a)) :
    (insertByScoreDesc x l).Pairwise (fun a b => scoreOf b ≤ scoreOf a) := by
  induction l with
  | nil => simp [insertByScoreDesc]
  | cons y ys ih =>
      obtain ⟨hy, hys⟩ := List.pairwise_cons.mp h
      by_cases hlt : scoreOf x < scoreOf y
      · rw [insertByScoreDesc, if_pos hlt]
        refine List.pairwise_cons.mpr ⟨?_, ih hys⟩
        intro z hz
        rcases mem_insertByScoreDesc.mp hz with rfl | hz2
        · exact le_of_lt hlt
        · exact hy z hz2
      · rw [insertByScoreDesc, if_neg hlt]
        refine List.pairwise_cons.mpr ⟨?_, h⟩
        intro z hz
        rcases List.mem_cons.mp hz with rfl | hz2
        · exact le_of_not_lt hlt
        · exact le_trans (hy z hz2) (le_of_not_lt hlt)

/-- The sort produces a descending order. -/
lemma sorted_sortByScoreDesc (l : List Idea) :
    (sortByScoreDesc l).Pairwise (fun a b => scoreOf b ≤ scoreOf a) := by
  induction l with
  | nil => simp [sortByScoreDesc]
  | cons x xs ih => exact sorted_insertByScoreDesc x _ ih

/-- A runner-up entry of the final result (data.rs): id and overall score;
the title is text and omitted. -/
structure RunnerUp where
  idea_id : ℕ
  overall_score : ℚ
  deriving DecidableEq

/-- The winning entry of the final result (data.rs, FinalBest): id, score
vector, overall score, and the numeric payloads of the three why_won
justification strings of phase.rs lines 358 to 365, in order: the overall
score, the feasibility score, and the value printed after the words Low
risk, which the source takes directly from best.scores.risk. -/
structure FinalBest where
  idea_id : ℕ
  scores : Scores
  overall_score : ℚ
  why_won : List ℚ
  deriving DecidableEq

/-- The final result (data.rs, FinalResult). -/
structure FinalResult where
  best : FinalBest
  runners_up : List RunnerUp
  deriving DecidableEq

/-- FinalPhase::run (phase.rs lines 320 to 380): filter to Active scored
ideas (the same filter select_ideas uses), stable sort descending, fail
with none when empty, otherwise bundle the head as best with its three
justification payloads and the next four ideas as runners-up. unwrap_or of
the source maps to getD 0. -/
def finalRun (ideas : List Idea) : Option FinalResult :=
  match sortByScoreDesc (activeScored ideas) with
  | [] => none
  | best :: rest =>
      some {
        best := {
          idea_id := best.id
          scores := best.scores
          overall_score := best.overall_score.getD 0
          why_won := [best.overall_score.getD 0, best.scores.feasibility,
            best.scores.risk] }
        runners_up := (rest.take 4).map
          (fun i => ⟨i.id, i.overall_score.getD 0⟩) }

-- Theorems for claim C4.

/-- One Active scored idea with raw risk 2 used as a concrete Final phase
input. -/
def cexFinalIdeas : List Idea :=
  [⟨0, { Scores.default with risk := 2 }, some 5, .Active⟩]

/-- C4 counterexample: at the concrete input the third justification
payload is the raw risk criterion 2, not the inverted value 10 - 2 = 8
the claim announces. -/
theorem final_reports_raw_risk :
    (finalRun cexFinalIdeas).map (fun r => r.best.why_won)
        = some [5, 0, 2] ∧
      (2 : ℚ) ≠ 10 - (2 : ℚ) := by
  constructor
  · rfl
  · norm_num

/-- C4 (amended): for every population with at least one Active scored
idea, the Final phase returns a result whose best entry is the head of the
stable descending order, carries a maximal overall score, and lists up to
3 justification payloads, namely the overall score, the feasibility score
and the raw risk criterion (not its inversion); up to 4 runners-up follow
with id and overall score. -/
theorem final_phase_best_and_justifications (ideas : List Idea)
    (h : ∃ i ∈ ideas, i.status = IdeaStatus.Active ∧ i.overall_score.isSome) :
    ∃ best rest, sortByScoreDesc (activeScored ideas) = best :: rest ∧
      finalRun ideas = some {
        best := {
          idea_id := best.id
          scores := best.scores
          overall_score := best.overall_score.getD 0
          why_won := [best.overall_score.getD 0, best.scores.feasibility,
            best.scores.risk] }
        runners_up := (rest.take 4).map
          (fun i => ⟨i.id, i.overall_score.getD 0⟩) } ∧
      (∀ i ∈ sortByScoreDesc (activeScored ideas), scoreOf i ≤ scoreOf best) ∧
      (rest.take 4).length ≤ 4 := by
  obtain ⟨i, hi, h1, h2⟩ := h
  have hmem : i ∈ sortByScoreDesc (activeScored ideas) :=
    mem_sortByScoreDesc.mpr (mem_activeScored.mpr ⟨hi, h1, h2⟩)
  cases hsort : sortByScoreDesc (activeScored ideas) with
  | nil => rw [hsort] at hmem; simp at hmem
  | cons best rest =>
      refine ⟨best, rest, rfl, ?_, ?_, ?_⟩
      · simp only [finalRun, hsort]
      · have hpair := sorted_sortByScoreDesc (activeScored ideas)
        rw [hsort] at hpair
        obtain ⟨hhead, _⟩ := List.pairwise_cons.mp hpair
        intro j hj
        rcases List.mem_cons.mp hj with rfl | hj2
        · exact le_refl _
        · exact hhead j hj2
      · exact List.length_take_le _ _

/-- C4 witness: the amended claim applied to the concrete one-idea
population. -/
theorem final_phase_best_and_justifications_witness :
    ∃ best rest, sortByScoreDesc (activeScored cexFinalIdeas) = best :: rest ∧
      finalRun cexFinalIdeas = some {
        best := {
          idea_id := best.id
          scores := best.scores
          overall_score := best.overall_score.getD 0
          why_won := [best.overall_score.getD 0, best.scores.feasibility,
            best.scores.risk] }
        runners_up := (rest.take 4).map
          (fun i => ⟨i.id, i.overall_score.getD 0⟩) } ∧
      (∀ i ∈ sortByScoreDesc (activeScored cexFinalIdeas),
        scoreOf i ≤ scoreOf best) ∧
      (rest.take 4).length ≤ 4 :=
  final_phase_best_and_justifications cexFinalIdeas (by decide)

-- Elo update, from src/orchestrator.rs lines 1276 to 1305.

/-- The logistic expectation of orchestrator.rs line 1294:
1 / (1 + 10 ^ ((loser_elo - winner_elo) / 400)). -/
noncomputable def expectedWinner (winner_elo loser_elo : ℝ) : ℝ :=
  1 / (1 + (10 : ℝ) ^ ((loser_elo - winner_elo) / 400))

/-- update_elo (orchestrator.rs lines 1276 to 1305) on the Elo map,
modelled as a function from idea id to optional rating; an absent entry
reads as the default 1000.0. K-factor 32; the winner entry is inserted
first and the loser entry second, so on the (never exercised) collision of
the two ids the loser entry wins. -/
noncomputable def update_elo (ratings : ℕ → Option ℝ)
    (winner_id loser_id : ℕ) : ℕ → Option ℝ :=
  let k_factor : ℝ := 32
  let winner_elo := (ratings winner_id).getD 1000
  let loser_elo := (ratings loser_id).getD 1000
  let expected_winner := expectedWinner winner_elo loser_elo
  let expected_loser := 1 - expected_winner
  let new_winner_elo := winner_elo + k_factor * (1 - expected_winner)
  let new_loser_elo := loser_elo + k_factor * (0 - expected_loser)
  fun id =>
    if id = loser_id then some new_loser_elo
    else if id = winner_id then some new_winner_elo
    else ratings id

-- Theorems for claim C7.

/-- C7: for every Elo map and distinct winner and loser (unseen ideas
reading as 1000.0), the winner gains 32 times (1 - expected_winner) with
the logistic expectation of the source, and the rating changes of winner
and loser sum to zero exactly. -/
theorem update_elo_gain_and_zero_sum (ratings : ℕ → Option ℝ)
    (winner_id loser_id : ℕ) (hne : winner_id ≠ loser_id) :
    ((update_elo ratings winner_id loser_id winner_id).getD 1000
        - (ratings winner_id).getD 1000)
      = 32 * (1 - expectedWinner ((ratings winner_id).getD 1000)
          ((ratings loser_id).getD 1000)) ∧
    ((update_elo ratings winner_id loser_id winner_id).getD 1000
        - (ratings winner_id).getD 1000)
      + ((update_elo ratings winner_id loser_id loser_id).getD 1000
        - (ratings loser_id).getD 1000) = 0 := by
  simp only [update_elo, if_neg hne, if_pos rfl, if_true, Option.getD_some]
  constructor <;> ring

/-- The empty Elo map: every idea unseen. -/
def emptyRatings : ℕ → Option ℝ := fun _ => none

/-- C7 witness: the theorem applied to the empty map with winner 0 and
loser 1, both reading as the default 1000.0. -/
theorem update_elo_gain_and_zero_sum_witness :
    ((update_elo emptyRatings 0 1 0).getD 1000
        - (emptyRatings 0).getD 1000)
      = 32 * (1 - expectedWinner ((emptyRatings 0).getD 1000)
          ((emptyRatings 1).getD 1000)) ∧
    ((update_elo emptyRatings 0 1 0).getD 1000
        - (emptyRatings 0).getD 1000)
      + ((update_elo emptyRatings 0 1 1).getD 1000
        - (emptyRatings 1).getD 1000) = 0 :=
  update_elo_gain_and_zero_sum emptyRatings 0 1 (by decide)


-- Adaptive pair selection, from src/orchestrator.rs lines 1238 to 1274.

/-- The order-independent key under which a compared pair is stored
(orchestrator.rs lines 1252 to 1256). -/
def normKey (a b : ℕ) : ℕ × ℕ := if a < b then (a, b) else (b, a)

/-- Absolute Elo gap of a pair; an id absent from the ratings map reads as
the default 1000.0 (orchestrator.rs lines 1262 to 1264). -/
def eloDiff (ratings : ℕ → Option ℚ) (p : ℕ × ℕ) : ℚ :=
  |(ratings p.1).getD 1000 - (ratings p.2).getD 1000|

/-- The index pairs i < j in the iteration order of the double loop of
orchestrator.rs lines 1246 to 1247, as pairs of ids. -/
def allPairs : List ℕ → List (ℕ × ℕ)
  | [] => []
  | x :: xs => xs.map (fun y => (x, y)) ++ allPairs xs

/-- The running-best update of orchestrator.rs lines 1266 to 1269: an
uncompared candidate replaces the running best when there is none yet (the
source starts smallest_diff at f64::MAX, which every actual gap beats) or
when its gap is strictly smaller. -/
def betterPair (ratings : ℕ → Option ℚ) (p : ℕ × ℕ)
    (best : Option ((ℕ × ℕ) × ℚ)) : Option ((ℕ × ℕ) × ℚ) :=
  match best with
  | none => some (p, eloDiff ratings p)
  | some (q, dq) =>
      if eloDiff ratings p < dq then some (p, eloDiff ratings p)
      else some (q, dq)

/-- The body of select_next_pair as a fold over the candidate pairs: skip
a pair whose key is already compared, otherwise update the running best. -/
def selectPairLoop (ratings : ℕ → Option ℚ) (compared : List (ℕ × ℕ)) :
    List (ℕ × ℕ) → Option ((ℕ × ℕ) × ℚ) → Option ((ℕ × ℕ) × ℚ)
  | [], best => best
  | p :: ps, best =>
      if normKey p.1 p.2 ∈ compared then
        selectPairLoop ratings compared ps best
      else
        selectPairLoop ratings compared ps (betterPair ratings p best)

/-- select_next_pair (orchestrator.rs lines 1238 to 1274): the uncompared
pair with the smallest Elo gap, ties resolved by iteration order; none when
every pair is already compared. -/
def select_next_pair (ids : List ℕ) (ratings : ℕ → Option ℚ)
    (compared : List (ℕ × ℕ)) : Option (ℕ × ℕ) :=
  (selectPairLoop ratings compared (allPairs ids) none).map Prod.fst

-- Theorems for claim C8.

/-- The running-best update never clears the running best. -/
lemma betterPair_ne_none (ratings : ℕ → Option ℚ) (p : ℕ × ℕ)
    (best : Option ((ℕ × ℕ) × ℚ)) : betterPair ratings p best ≠ none := by
  match best with
  | none => simp [betterPair]
  | some (q, dq) =>
      rw [betterPair]
      split <;> simp

/-- What the running-best update returns: either the new candidate with
its own gap, or the unchanged previous best whose gap the candidate does
not beat; in both cases the recorded gap is at most both the candidate gap
and any previous gap. -/
lemma betterPair_spec (ratings : ℕ → Option ℚ) (p : ℕ × ℕ)
    (best : Option ((ℕ × ℕ) × ℚ)) (q : ℕ × ℕ) (dq : ℚ)
    (h : betterPair ratings p best = some (q, dq)) :
    ((q, dq) = (p, eloDiff ratings p) ∨ best = some (q, dq)) ∧
    dq ≤ eloDiff ratings p ∧
    (∀ q0 dq0, best = some (q0, dq0) → dq ≤ dq0) := by
  match best with
  | none =>
      rw [betterPair, Option.some_inj] at h
      exact ⟨Or.inl h.symm, le_of_eq (congrArg Prod.snd h.symm),
        fun q0 dq0 h0 => absurd h0 (by simp)⟩
  | some (q1, dq1) =>
      rw [betterPair] at h
      split at h <;> rw [Option.some_inj] at h
      · obtain ⟨h1, h2⟩ := Prod.mk.injEq .. |>.mp h
        refine ⟨Or.inl h.symm, le_of_eq h2.symm, ?_⟩
        intro q0 dq0 h0
        rw [Option.some_inj] at h0
        obtain ⟨_, h4⟩ := Prod.mk.injEq .. |>.mp h0
        rw [← h2, ← h4]
        exact le_of_lt (by assumption)
      · obtain ⟨h1, h2⟩ := Prod.mk.injEq .. |>.mp h
        refine ⟨Or.inr (by rw [h1, h2]), ?_, ?_⟩
        · rw [← h2]
          exact le_of_not_lt (by assumption)
        · intro q0 dq0 h0
          rw [Option.some_inj] at h0
          obtain ⟨_, h4⟩ := Prod.mk.injEq .. |>.mp h0
          rw [← h2, ← h4]

/-- The loop returns none exactly when it started empty and every
candidate is already compared. -/
lemma selectPairLoop_none_iff (ratings : ℕ → Option ℚ)
    (compared : List (ℕ × ℕ)) :
    ∀ (L : List (ℕ × ℕ)) (acc : Option ((ℕ × ℕ) × ℚ)),
      selectPairLoop ratings compared L acc = none ↔
        acc = none ∧ ∀ q ∈ L, normKey q.1 q.2 ∈ compared := by
  intro L
  induction L with
  | nil => intro acc; simp [selectPairLoop]
  | cons p ps ih =>
      intro acc
      rw [selectPairLoop]
      by_cases hc : normKey p.1 p.2 ∈ compared
      · rw [if_pos hc, ih]
        simp [hc]
      · rw [if_neg hc, ih]
        simp only [betterPair_ne_none, false_and, false_iff, not_and]
        intro _ hall
        exact hc (hall p (List.mem_cons_self p ps))

/-- What the loop returns when it returns a pair: the pair came from the
accumulator or from the list uncompared with its own gap recorded, and the
recorded gap is minimal among uncompared candidates and at most the
accumulated one. -/
lemma selectPairLoop_some (ratings : ℕ → Option ℚ)
    (compared : List (ℕ × ℕ)) :
    ∀ (L : List (ℕ × ℕ)) (acc : Option ((ℕ × ℕ) × ℚ)) (p : ℕ × ℕ) (d : ℚ),
      selectPairLoop ratings compared L acc = some (p, d) →
        (acc = some (p, d) ∨
          (p ∈ L ∧ normKey p.1 p.2 ∉ compared ∧ d = eloDiff ratings p)) ∧
        (∀ q ∈ L, normKey q.1 q.2 ∉ compared → d ≤ eloDiff ratings q) ∧
        (∀ q dq, acc = some (q, dq) → d ≤ dq) := by
  intro L
  induction L with
  | nil =>
      intro acc p d hres
      rw [selectPairLoop] at hres
      subst hres
      refine ⟨Or.inl rfl, by simp, ?_⟩
      intro q dq hq
      rw [Option.some_inj] at hq
      rw [(Prod.mk.injEq .. |>.mp hq).2]
  | cons r rs ih =>
      intro acc p d hres
      rw [selectPairLoop] at hres
      by_cases hc : normKey r.1 r.2 ∈ compared
      · rw [if_pos hc] at hres
        obtain ⟨hA, hB, hC⟩ := ih acc p d hres
        refine ⟨?_, ?_, hC⟩
        · rcases hA with h | ⟨h1, h2, h3⟩
          · exact Or.inl h
          · exact Or.inr ⟨List.mem_cons_of_mem r h1, h2, h3⟩
        · intro q hq hqc
          rcases List.mem_cons.mp hq with rfl | hq2
          · exact absurd hc hqc
          · exact hB q hq2 hqc
      · rw [if_neg hc] at hres
        obtain ⟨hA, hB, hC⟩ := ih _ p d hres
        cases hbp : betterPair ratings r acc with
        | none => exact absurd hbp (betterPair_ne_none ratings r acc)
        | some qd =>
            obtain ⟨q1, dq1⟩ := qd
            obtain ⟨hbp1, hbp2, hbp3⟩ := betterPair_spec ratings r acc q1 dq1 hbp
            have hd1 : d ≤ dq1 := hC q1 dq1 hbp
            refine ⟨?_, ?_, ?_⟩
            · rcases hA with h | ⟨h1, h2, h3⟩
              · rw [hbp] at h
                rw [Option.some_inj] at h
                rcases hbp1 with h5 | h5
                · obtain ⟨h6, h7⟩ := Prod.mk.injEq .. |>.mp (h.symm.trans h5)
                  exact Or.inr ⟨by rw [h6]; exact List.mem_cons_self r rs,
                    by rw [h6]; exact hc, by rw [h7, h6]⟩
                · exact Or.inl (by rw [h5, h])
              · exact Or.inr ⟨List.mem_cons_of_mem r h1, h2, h3⟩
            · intro q hq hqc
              rcases List.mem_cons.mp hq with rfl | hq2
              · exact le_trans hd1 hbp2
              · exact hB q hq2 hqc
            · intro q dq hq
              exact le_trans hd1 (hbp3 q dq hq)

/-- C8: select_next_pair never returns a pair whose key is already
compared; a returned pair is one of the candidate index pairs and carries
a minimal absolute Elo gap among the uncompared candidates (ties resolved
by iteration order inside the loop); and none is returned exactly when
every candidate pair is already compared. -/
theorem select_next_pair_spec (ids : List ℕ) (ratings : ℕ → Option ℚ)
    (compared : List (ℕ × ℕ)) :
    (∀ p, select_next_pair ids ratings compared = some p →
      p ∈ allPairs ids ∧ normKey p.1 p.2 ∉ compared ∧
      ∀ q ∈ allPairs ids, normKey q.1 q.2 ∉ compared →
        eloDiff ratings p ≤ eloDiff ratings q) ∧
    (select_next_pair ids ratings compared = none ↔
      ∀ q ∈ allPairs ids, normKey q.1 q.2 ∈ compared) := by
  constructor
  · intro p hp
    simp only [select_next_pair, Option.map_eq_some'] at hp
    obtain ⟨⟨p2, d⟩, hloop, hfst⟩ := hp
    obtain ⟨hA, hB, _⟩ := selectPairLoop_some ratings compared
      (allPairs ids) none p2 d hloop
    rcases hA with h | ⟨h1, h2, h3⟩
    · exact absurd h (by simp)
    · subst hfst
      exact ⟨h1, h2, fun q hq hqc => h3 ▸ hB q hq hqc⟩
  · rw [select_next_pair, Option.map_eq_none',
      selectPairLoop_none_iff ratings compared (allPairs ids) none]
    simp

-- Pairwise multiplicative-weights fit, from src/orchestrator.rs lines
-- 1603 to 1644 and 1691 to 1718.

/-- Risk direction used when building feature vectors (orchestrator.rs,
RiskMode): read the raw risk as a benefit, or invert it as 10 - risk. -/
inductive RiskMode where
  | AsBenefit
  | Invert
  deriving DecidableEq

/-- scores_to_features (orchestrator.rs lines 1702 to 1718): the eight
criteria in source order, risk transformed according to the mode. -/
def scores_to_features (s : Scores) (risk_mode : RiskMode) : Fin 8 → ℚ :=
  ![s.feasibility, s.speed_to_value, s.differentiation, s.market_size,
    s.distribution, s.moats,
    match risk_mode with
    | .AsBenefit => s.risk
    | .Invert => 10 - s.risk,
    s.clarity]

/-- f64::clamp(0.1, 10.0) of orchestrator.rs line 1628. -/
noncomputable def clampWeight (x : ℝ) : ℝ := min (max x (1 / 10)) 10

/-- normalize_in_place (orchestrator.rs lines 1691 to 1700): reset to the
uniform 1/8 vector when the sum is not positive, otherwise divide every
entry by the sum. -/
noncomputable def normalize_in_place (w : Fin 8 → ℝ) : Fin 8 → ℝ :=
  let sum := ∑ i, w i
  if sum ≤ 0 then fun _ => 1 / 8 else fun i => w i / sum

/-- The per-pair update of orchestrator.rs lines 1625 to 1631: multiply
every weight by exp(learning rate times the feature delta) with learning
rate 0.05, clamp it to [0.1, 10.0], then renormalize the vector. -/
noncomputable def mwUpdate (risk_mode : RiskMode) (winner loser : Scores)
    (w : Fin 8 → ℝ) : Fin 8 → ℝ :=
  normalize_in_place (fun i =>
    clampWeight (w i * Real.exp ((0.05 : ℝ) *
      ((scores_to_features winner risk_mode i : ℝ)
        - (scores_to_features loser risk_mode i : ℝ)))))

/-- One training pair (orchestrator.rs lines 1616 to 1631): a pair whose
winner or loser has no known score vector is skipped. -/
noncomputable def mwStep (risk_mode : RiskMode)
    (scores_by_id : ℕ → Option Scores) (w : Fin 8 → ℝ) (pr : ℕ × ℕ) :
    Fin 8 → ℝ :=
  match scores_by_id pr.1, scores_by_id pr.2 with
  | some winner, some loser => mwUpdate risk_mode winner loser w
  | _, _ => w

/-- One index of the training loop (orchestrator.rs line 1615): look up
the pair at the index; the source builds indices from 0..len so the lookup
never misses, and a missing index is modelled as a skip. -/
noncomputable def mwFoldStep (pairs : List (ℕ × ℕ))
    (scores_by_id : ℕ → Option Scores) (risk_mode : RiskMode)
    (w : Fin 8 → ℝ) (idx : ℕ) : Fin 8 → ℝ :=
  match pairs[idx]? with
  | some pr => mwStep risk_mode scores_by_id w pr
  | none => w

/-- fit_criterion_weights_pairwise_mw_on_indices (orchestrator.rs lines
1603 to 1644): start from the uniform positive prior of all ones and fold
the training update over the given indices. -/
noncomputable def fit_criterion_weights_pairwise_mw_on_indices
    (pairs : List (ℕ × ℕ)) (scores_by_id : ℕ → Option Scores)
    (risk_mode : RiskMode) (indices : List ℕ) : Fin 8 → ℝ :=
  indices.foldl (mwFoldStep pairs scores_by_id risk_mode) (fun _ => 1)

-- Theorems for claim C9.

/-- A weight vector that sums to one with every entry positive. -/
def NormalizedPos (w : Fin 8 → ℝ) : Prop :=
  (∑ i, w i) = 1 ∧ ∀ i, 0 < w i

/-- The clamp never goes below its lower bound 0.1. -/
lemma clampWeight_ge (x : ℝ) : (1 : ℝ) / 10 ≤ clampWeight x :=
  le_min (le_max_right _ _) (by norm_num)

/-- Normalizing a vector of entries at least 0.1 yields a normalized
positive vector. -/
lemma normalize_in_place_pos (c : Fin 8 → ℝ)
    (h : ∀ i, (1 : ℝ) / 10 ≤ c i) : NormalizedPos (normalize_in_place c) := by
  have hsum : (0 : ℝ) < ∑ i, c i := by
    have h8 : (∑ _i : Fin 8, (1 : ℝ) / 10) ≤ ∑ i, c i :=
      Finset.sum_le_sum (fun i _ => h i)
    simp [Finset.sum_const] at h8
    linarith
  simp only [normalize_in_place, if_neg (not_le.mpr hsum)]
  constructor
  · rw [← Finset.sum_div]
    exact div_self (ne_of_gt hsum)
  · intro i
    exact div_pos (lt_of_lt_of_le (by norm_num) (h i)) hsum

/-- Every training update yields a normalized positive vector, whatever
the incoming vector. -/
lemma mwUpdate_normalizedPos (risk_mode : RiskMode) (winner loser : Scores)
    (w : Fin 8 → ℝ) : NormalizedPos (mwUpdate risk_mode winner loser w) :=
  normalize_in_place_pos _ (fun _ => clampWeight_ge _)

/-- A step over a pair with known score vectors yields a normalized
positive vector. -/
lemma mwStep_normalizedPos_of_known (risk_mode : RiskMode)
    (scores_by_id : ℕ → Option Scores) (w : Fin 8 → ℝ) (pr : ℕ × ℕ)
    (ha : (scores_by_id pr.1).isSome) (hb : (scores_by_id pr.2).isSome) :
    NormalizedPos (mwStep risk_mode scores_by_id w pr) := by
  obtain ⟨a, ha2⟩ := Option.isSome_iff_exists.mp ha
  obtain ⟨b, hb2⟩ := Option.isSome_iff_exists.mp hb
  have heq : mwStep risk_mode scores_by_id w pr
      = mwUpdate risk_mode a b w := by
    unfold mwStep
    rw [ha2, hb2]
  rw [heq]
  exact mwUpdate_normalizedPos risk_mode a b w

/-- A step preserves normalized positivity. -/
lemma mwStep_preserves (risk_mode : RiskMode)
    (scores_by_id : ℕ → Option Scores) (w : Fin 8 → ℝ) (pr : ℕ × ℕ)
    (hw : NormalizedPos w) :
    NormalizedPos (mwStep risk_mode scores_by_id w pr) := by
  unfold mwStep
  cases ha : scores_by_id pr.1 with
  | none => exact hw
  | some a =>
      cases hb : scores_by_id pr.2 with
      | none => exact hw
      | some b => exact mwUpdate_normalizedPos risk_mode a b w

/-- An index step preserves normalized positivity. -/
lemma mwFoldStep_preserves (pairs : List (ℕ × ℕ))
    (scores_by_id : ℕ → Option Scores) (risk_mode : RiskMode)
    (w : Fin 8 → ℝ) (idx : ℕ) (hw : NormalizedPos w) :
    NormalizedPos (mwFoldStep pairs scores_by_id risk_mode w idx) := by
  unfold mwFoldStep
  cases h : pairs[idx]? with
  | none => exact hw
  | some pr => exact mwStep_preserves risk_mode scores_by_id w pr hw

/-- The training fold yields a normalized positive vector as soon as some
index hits a pair with known score vectors, or the incoming vector already
is one. -/
lemma mwFold_normalizedPos (pairs : List (ℕ × ℕ))
    (scores_by_id : ℕ → Option Scores) (risk_mode : RiskMode) :
    ∀ (indices : List ℕ) (w : Fin 8 → ℝ),
      ((∃ idx ∈ indices, ∃ pr, pairs[idx]? = some pr ∧
          (scores_by_id pr.1).isSome ∧ (scores_by_id pr.2).isSome) ∨
        NormalizedPos w) →
      NormalizedPos
        (indices.foldl (mwFoldStep pairs scores_by_id risk_mode) w) := by
  intro indices
  induction indices with
  | nil =>
      intro w h
      rcases h with ⟨idx, hidx, _⟩ | hgood
      · simp at hidx
      · exact hgood
  | cons idx rest ih =>
      intro w h
      rw [List.foldl_cons]
      rcases h with ⟨j, hj, pr, h1, h2, h3⟩ | hgood
      · rcases List.mem_cons.mp hj with rfl | hj2
        · refine ih _ (Or.inr ?_)
          unfold mwFoldStep
          rw [h1]
          exact mwStep_normalizedPos_of_known risk_mode scores_by_id w pr h2 h3
        · exact ih _ (Or.inl ⟨j, hj2, pr, h1, h2, h3⟩)
      · exact ih _ (Or.inr
          (mwFoldStep_preserves pairs scores_by_id risk_mode w idx hgood))

/-- C9: over a non-empty index list whose every index hits a training pair
with known criterion vectors, the fitted weight vector sums to exactly 1
(so in particular to 1 within 1e-6) and every fitted weight is strictly
positive: the fold ends with a clamp into [0.1, 10] followed by a
renormalization. -/
theorem fit_weights_sum_one_and_positive (pairs : List (ℕ × ℕ))
    (scores_by_id : ℕ → Option Scores) (risk_mode : RiskMode)
    (indices : List ℕ) (hne : indices ≠ [])
    (hknown : ∀ idx ∈ indices, ∃ pr, pairs[idx]? = some pr ∧
      (scores_by_id pr.1).isSome ∧ (scores_by_id pr.2).isSome) :
    (∑ i, fit_criterion_weights_pairwise_mw_on_indices pairs scores_by_id
        risk_mode indices i) = 1 ∧
    |(∑ i, fit_criterion_weights_pairwise_mw_on_indices pairs scores_by_id
        risk_mode indices i) - 1| ≤ 1 / 1000000 ∧
    ∀ i, 0 < fit_criterion_weights_pairwise_mw_on_indices pairs scores_by_id
        risk_mode indices i := by
  obtain ⟨idx, rest, hcons⟩ := List.exists_cons_of_ne_nil hne
  have hidx : idx ∈ indices := by rw [hcons]; exact List.mem_cons_self idx rest
  obtain ⟨pr, h1, h2, h3⟩ := hknown idx hidx
  have hgood : NormalizedPos
      (fit_criterion_weights_pairwise_mw_on_indices pairs scores_by_id
        risk_mode indices) :=
    mwFold_normalizedPos pairs scores_by_id risk_mode indices
      (fun _ => 1) (Or.inl ⟨idx, hidx, pr, h1, h2, h3⟩)
  obtain ⟨hsum, hpos⟩ := hgood
  refine ⟨hsum, ?_, hpos⟩
  rw [hsum]
  norm_num

/-- The concrete comparison list with one pair. -/
def cexPairs : List (ℕ × ℕ) := [(0, 1)]

/-- A score map with every id known. -/
def cexScoresById : ℕ → Option Scores := fun _ => some Scores.default

/-- C9 witness: the theorem applied to one training pair over the constant
score map, index list [0]. -/
theorem fit_weights_sum_one_and_positive_witness :
    (∑ i, fit_criterion_weights_pairwise_mw_on_indices cexPairs
        cexScoresById RiskMode.AsBenefit [0] i) = 1 ∧
    |(∑ i, fit_criterion_weights_pairwise_mw_on_indices cexPairs
        cexScoresById RiskMode.AsBenefit [0] i) - 1| ≤ 1 / 1000000 ∧
    ∀ i, 0 < fit_criterion_weights_pairwise_mw_on_indices cexPairs
        cexScoresById RiskMode.AsBenefit [0] i :=
  fit_weights_sum_one_and_positive cexPairs cexScoresById RiskMode.AsBenefit
    [0] (by simp)
    (fun idx hidx => by
      have h0 : idx = 0 := by simpa using hidx
      subst h0
      exact ⟨(0, 1), rfl, rfl, rfl⟩)
